import Mathlib

/-!
Verification of the Base64 codec in `src/base64.rs` (struct `Base64` with
`encode`/`decode` and error type `Base64Error`).

The embedding works on the byte/character level: a Rust `&str` input to
`encode` is represented by its byte sequence (`List Nat`, each element a
`u8` value), and the `String` produced by `decode` is represented by its
byte sequence together with the UTF-8 validity check that
`String::from_utf8` performs.
-/

namespace B64

/-- The constant `BASE64_ALPHABET` from the source. -/
def BASE64_ALPHABET : String :=
  "ABCDEFGHIJKLMNOPQRSTUVWXYZabcdefghijklmnopqrstuvwxyz0123456789+/"

/-- The alphabet as a list of characters. -/
def alphabet : List Char := BASE64_ALPHABET.data

/-- Models `BASE64_ALPHABET.chars().nth(idx)` from `encode`. -/
def alphabetNth (idx : Nat) : Option Char := alphabet.get? idx

/-- The `.unwrap()` applied to the lookup in `encode`, made total with a
fallback character; the safety theorem shows the fallback is unreachable
because the index is masked with `0b111111`. -/
def alphabetNthUnwrap (idx : Nat) : Char := (alphabetNth idx).getD 'A'

/-- Models `BASE64_ALPHABET.find(ch)` from `decode`: index of the first occurrence
of `ch`. The alphabet is ASCII, so the byte index returned by Rust equals
the character index. -/
def alphaFind (c : Char) : Option Nat := alphabet.findIdx? (fun x => x = c)

/-- Models `bytes.chunks(3)` from `encode`: consecutive chunks of up to 3 bytes,
the last chunk possibly shorter. -/
def chunks3 : List Nat → List (List Nat)
  | [] => []
  | b0 :: b1 :: b2 :: rest => [b0, b1, b2] :: chunks3 rest
  | rest => [rest]

/-- The 24-bit buffer built by the loop
`for (i, &byte) in chunk.iter().enumerate() { buf |= byte << (16 - i*8) }`
for a chunk of at most 3 bytes. -/
def packBuf : List Nat → Nat
  | [] => 0
  | [b0] => b0 <<< 16
  | [b0, b1] => (b0 <<< 16) ||| (b1 <<< 8)
  | b0 :: b1 :: b2 :: _ => ((b0 <<< 16) ||| (b1 <<< 8)) ||| b2

/-- One chunk's four output characters:
`(0..4).map(|i| if i < chunk.len() + 1 { alphabet[(buf >> (18 - i*6)) & 0b111111] } else { '=' })`. -/
def encodeChunk (chunk : List Nat) : List Char :=
  (List.range 4).map (fun i =>
    if i < chunk.length + 1 then
      alphabetNthUnwrap ((packBuf chunk >>> (18 - i * 6)) &&& 63)
    else '=')

/-- Models `Base64::encode`, acting on the input string's bytes. -/
def encode (bs : List Nat) : List Char :=
  ((chunks3 bs).map encodeChunk).flatten

/-- The error type `Base64Error` from the source. `Utf8Error` carries the
offending byte sequence, standing for Rust's `FromUtf8Error` diagnostic. -/
inductive Base64Error where
  | Utf8Error (bytes : List Nat) : Base64Error
  | InvalidCharacter : Base64Error
deriving DecidableEq, Repr

/-- The byte extraction `(0..3 - padding_count).for_each(|i| bytes.push((buf >> (16 - i*8)) as u8))`
from `decode`. In Rust `padding_count` is an `i32`, so `3 - padding_count`
is negative (an empty range) when the count exceeds 3; `Nat` truncated
subtraction produces the same empty range. `as u8` truncates mod 256. -/
def extractBytes (buf pc : Nat) : List Nat :=
  (List.range (3 - pc)).map (fun i => (buf >>> (16 - i * 8)) % 256)

/-- The character loop of `Base64::decode`. The state is the triple
(output `bytes`, 24-bit `buf`, `padding_count`), and `i` is the running
character index (`n = i % 4` the slot within the current group). Mirrors
the source exactly: on `'='` only the padding counter is incremented; on an
alphabet character its 6-bit index is or-ed into the buffer; on any other
character the loop aborts with `InvalidCharacter`; whenever `n == 3` the
bytes `0..3 - padding_count` are extracted and `buf` (and only `buf`) is
reset to zero. Returns the final state. -/
def decodeLoop : List Char → Nat → Nat → Nat → List Nat →
    Except Base64Error (List Nat × Nat × Nat)
  | [], _, buf, pc, bytes => .ok (bytes, buf, pc)
  | ch :: rest, i, buf, pc, bytes =>
    let n := i % 4
    if ch = '=' then
      if n = 3 then
        decodeLoop rest (i + 1) 0 (pc + 1) (bytes ++ extractBytes buf (pc + 1))
      else
        decodeLoop rest (i + 1) buf (pc + 1) bytes
    else
      match alphaFind ch with
      | none => .error .InvalidCharacter
      | some idx =>
        let buf1 := buf ||| ((idx <<< (18 - n * 6)) &&& 0xFFFFFF)
        if n = 3 then
          decodeLoop rest (i + 1) 0 pc (bytes ++ extractBytes buf1 pc)
        else
          decodeLoop rest (i + 1) buf1 pc bytes

/-- The byte-assembly phase of `Base64::decode`: the accumulated `bytes`
vector, or the character-level error. -/
def decodeBytes (s : List Char) : Except Base64Error (List Nat) :=
  (decodeLoop s 0 0 0 []).map (fun st => st.1)

/-- Whether a byte is a UTF-8 continuation byte (`0x80..=0xBF`). -/
def contByte (b : Nat) : Bool := 0x80 ≤ b && b ≤ 0xBF

/-- Modelled from the spec: the validity check of Rust's
`String::from_utf8` (the standard library call in `decode`, not part of
this repository), deciding whether a byte sequence "is valid text in the
system's native text encoding" (UTF-8): ASCII bytes stand alone, lead
bytes `0xC2..=0xDF`, `0xE0..=0xEF`, `0xF0..=0xF4` start 2-, 3- and 4-byte
sequences with the usual restrictions ruling out overlong forms,
surrogates and code points above `0x10FFFF`. -/
def utf8Valid : List Nat → Bool
  | [] => true
  | b :: rest =>
    if b ≤ 0x7F then utf8Valid rest
    else if 0xC2 ≤ b && b ≤ 0xDF then
      match rest with
      | c1 :: rest2 => contByte c1 && utf8Valid rest2
      | _ => false
    else if b == 0xE0 then
      match rest with
      | c1 :: c2 :: rest2 =>
        (0xA0 ≤ c1 && c1 ≤ 0xBF) && contByte c2 && utf8Valid rest2
      | _ => false
    else if (0xE1 ≤ b && b ≤ 0xEC) || b == 0xEE || b == 0xEF then
      match rest with
      | c1 :: c2 :: rest2 => contByte c1 && contByte c2 && utf8Valid rest2
      | _ => false
    else if b == 0xED then
      match rest with
      | c1 :: c2 :: rest2 =>
        (0x80 ≤ c1 && c1 ≤ 0x9F) && contByte c2 && utf8Valid rest2
      | _ => false
    else if b == 0xF0 then
      match rest with
      | c1 :: c2 :: c3 :: rest2 =>
        (0x90 ≤ c1 && c1 ≤ 0xBF) && contByte c2 && contByte c3 && utf8Valid rest2
      | _ => false
    else if 0xF1 ≤ b && b ≤ 0xF3 then
      match rest with
      | c1 :: c2 :: c3 :: rest2 =>
        contByte c1 && contByte c2 && contByte c3 && utf8Valid rest2
      | _ => false
    else if b == 0xF4 then
      match rest with
      | c1 :: c2 :: c3 :: rest2 =>
        (0x80 ≤ c1 && c1 ≤ 0x8F) && contByte c2 && contByte c3 && utf8Valid rest2
      | _ => false
    else false

/-- Models `Base64::decode`. The Rust method returns the decoded text as a
`String` built by `String::from_utf8(bytes)`; we return the byte sequence
(which determines the string) after the same validity check, or the error. -/
def decode (s : List Char) : Except Base64Error (List Nat) :=
  match decodeBytes s with
  | .error e => .error e
  | .ok bs => if utf8Valid bs then .ok bs else .error (.Utf8Error bs)

/-- A character `decode` accepts: the padding symbol or an alphabet symbol. -/
def validChar (c : Char) : Prop := c = '=' ∨ c ∈ alphabet

instance : DecidablePred validChar := fun c =>
  inferInstanceAs (Decidable (c = '=' ∨ c ∈ alphabet))

/-- The number of padding symbols at the end of an encoded string. -/
def trailingPadCount (s : List Char) : Nat :=
  (s.reverse.takeWhile (fun c => c = '=')).length

/-! ## Alphabet facts -/

/-- The alphabet has 64 symbols. -/
theorem alphabet_length : alphabet.length = 64 := by decide

/-- Masking with `0b111111` keeps the index below the alphabet length. -/
theorem and63_lt (x : Nat) : x &&& 63 < 64 :=
  Nat.lt_of_le_of_lt Nat.and_le_right (by norm_num)

/-- Looking up an alphabet character finds its own index back. -/
theorem alphaFind_nthUnwrap :
    ∀ k : Fin 64, alphaFind (alphabetNthUnwrap k.val) = some k.val := by decide

/-- No alphabet character is the padding symbol. -/
theorem nthUnwrap_ne_pad : ∀ k : Fin 64, alphabetNthUnwrap k.val ≠ '=' := by decide

/-- The total lookup always lands in the alphabet. -/
theorem nthUnwrap_mem : ∀ n : Nat, alphabetNthUnwrap n ∈ alphabet := by
  intro n
  by_cases h : n < 64
  · have hlt : n < alphabet.length := by rw [alphabet_length]; exact h
    have heq := List.get?_eq_get (l := alphabet) hlt
    rw [alphabetNthUnwrap, alphabetNth, heq]
    exact List.get_mem _ _ _
  · have hnone : alphabet.get? n = none := List.get?_len_le (by rw [alphabet_length]; omega)
    rw [alphabetNthUnwrap, alphabetNth, hnone]
    decide

/-- In-bounds alphabet lookups succeed. -/
theorem alphabetNth_isSome_of_lt {n : Nat} (h : n < 64) :
    (alphabetNth n).isSome = true := by
  have hlt : n < alphabet.length := by rw [alphabet_length]; exact h
  rw [alphabetNth, List.get?_eq_get hlt]
  rfl

/-! ## Bit arithmetic -/

/-- Or of a shifted value with a value fitting in the shifted-away bits is
addition. -/
theorem mul_pow_or_eq_add (k a b : Nat) (hb : b < 2 ^ k) :
    (a * 2 ^ k) ||| b = a * 2 ^ k + b := by
  induction k generalizing a b with
  | zero =>
    have : b = 0 := by omega
    subst this
    simp
  | succ k ih =>
    have hb2 : b / 2 < 2 ^ k := by
      rw [Nat.pow_succ] at hb
      omega
    have hdiv : (a * 2 ^ (k + 1)) / 2 = a * 2 ^ k := by
      rw [Nat.pow_succ, ← Nat.mul_assoc]
      exact Nat.mul_div_cancel _ (by norm_num)
    have hmod0 : (a * 2 ^ (k + 1)) % 2 = 0 := by
      rw [Nat.pow_succ, ← Nat.mul_assoc]
      exact Nat.mul_mod_left _ _
    have hDiv : ((a * 2 ^ (k + 1)) ||| b) / 2 = a * 2 ^ k ||| b / 2 := by
      rw [Nat.or_div_two, hdiv]
    have hMod : ((a * 2 ^ (k + 1)) ||| b) % 2 = b % 2 := by
      have hiff := Nat.or_mod_two_eq_one (a := a * 2 ^ (k + 1)) (b := b)
      rcases Nat.mod_two_eq_zero_or_one b with h | h <;>
        rcases Nat.mod_two_eq_zero_or_one ((a * 2 ^ (k + 1)) ||| b) with h2 | h2 <;>
        simp [h, h2, hmod0] at hiff ⊢
    have hsplit := Nat.div_add_mod ((a * 2 ^ (k + 1)) ||| b) 2
    rw [hDiv, hMod, ih a (b / 2) hb2] at hsplit
    rw [Nat.pow_succ] at *
    omega

theorem shiftLeft_or_eq_add {k b : Nat} (a : Nat) (hb : b < 2 ^ k) :
    (a <<< k) ||| b = a <<< k + b := by
  rw [Nat.shiftLeft_eq]
  exact mul_pow_or_eq_add k a b hb

/-- The 6-bit mask in arithmetic form. -/
theorem shr_and63 (P s : Nat) : (P >>> s) &&& 63 = P / 2 ^ s % 64 := by
  rw [Nat.shiftRight_eq_div_pow]
  have h63 : (63 : Nat) = 2 ^ 6 - 1 := by norm_num
  rw [h63, Nat.and_pow_two_sub_one_eq_mod]

/-- The 24-bit mask is a no-op below `2^24`. -/
theorem mask24_of_lt {x : Nat} (h : x < 16777216) : x &&& 16777215 = x := by
  have h24 : (16777215 : Nat) = 2 ^ 24 - 1 := by norm_num
  rw [h24]
  exact Nat.and_pow_two_sub_one_of_lt_two_pow (by norm_num at *; omega)

/-- Reassembling four 6-bit fields, in arithmetic form. -/
theorem or4_eq_add (i0 i1 i2 i3 : Nat) (h1 : i1 < 64) (h2 : i2 < 64) (h3 : i3 < 64) :
    ((i0 <<< 18 ||| i1 <<< 12) ||| i2 <<< 6) ||| i3
      = i0 * 262144 + i1 * 4096 + i2 * 64 + i3 := by
  have s1 : i0 <<< 18 ||| i1 <<< 12 = i0 <<< 18 + i1 <<< 12 :=
    shiftLeft_or_eq_add i0 (by rw [Nat.shiftLeft_eq]; norm_num; omega)
  have m1 : i0 <<< 18 + i1 <<< 12 = (i0 * 64 + i1) <<< 12 := by
    simp [Nat.shiftLeft_eq]
    ring
  have s2 : (i0 * 64 + i1) <<< 12 ||| i2 <<< 6 = (i0 * 64 + i1) <<< 12 + i2 <<< 6 :=
    shiftLeft_or_eq_add _ (by rw [Nat.shiftLeft_eq]; norm_num; omega)
  have m2 : (i0 * 64 + i1) <<< 12 + i2 <<< 6 = ((i0 * 64 + i1) * 64 + i2) <<< 6 := by
    simp [Nat.shiftLeft_eq]
    ring
  have s3 : ((i0 * 64 + i1) * 64 + i2) <<< 6 ||| i3 = ((i0 * 64 + i1) * 64 + i2) <<< 6 + i3 :=
    shiftLeft_or_eq_add _ (by norm_num; omega)
  rw [s1, m1, s2, m2, s3, Nat.shiftLeft_eq]
  ring_nf

/-- The packed 24-bit buffer of a 1-byte chunk. -/
theorem packBuf1_eq (b0 : Nat) : packBuf [b0] = b0 * 65536 := by
  rw [packBuf, Nat.shiftLeft_eq]

/-- The packed 24-bit buffer of a 2-byte chunk. -/
theorem packBuf2_eq (b0 b1 : Nat) (h1 : b1 < 256) :
    packBuf [b0, b1] = b0 * 65536 + b1 * 256 := by
  rw [packBuf]
  rw [shiftLeft_or_eq_add b0 (k := 16) (by rw [Nat.shiftLeft_eq]; norm_num; omega)]
  simp [Nat.shiftLeft_eq]

/-- The packed 24-bit buffer of a 3-byte chunk. -/
theorem packBuf3_eq (b0 b1 b2 : Nat) (h1 : b1 < 256) (h2 : b2 < 256) :
    packBuf [b0, b1, b2] = b0 * 65536 + b1 * 256 + b2 := by
  rw [packBuf]
  rw [shiftLeft_or_eq_add b0 (k := 16) (by rw [Nat.shiftLeft_eq]; norm_num; omega)]
  have m : b0 <<< 16 + b1 <<< 8 = (b0 * 256 + b1) <<< 8 := by
    simp [Nat.shiftLeft_eq]
    ring
  rw [m, shiftLeft_or_eq_add _ (k := 8) (by norm_num; omega)]
  simp [Nat.shiftLeft_eq]
  ring


theorem decodeLoop_group3 (c0 c1 c2 c3 : Char) (i0 i1 i2 i3 : Nat)
    (f0 : alphaFind c0 = some i0) (f1 : alphaFind c1 = some i1)
    (f2 : alphaFind c2 = some i2) (f3 : alphaFind c3 = some i3)
    (n0 : c0 ≠ '=') (n1 : c1 ≠ '=') (n2 : c2 ≠ '=') (n3 : c3 ≠ '=')
    (rest : List Char) (i buf pc : Nat) (bytes : List Nat) (hi : i % 4 = 0) :
    decodeLoop (c0 :: c1 :: c2 :: c3 :: rest) i buf pc bytes =
      decodeLoop rest (i + 4) 0 pc (bytes ++ extractBytes
        ((((buf ||| ((i0 <<< 18) &&& 16777215)) ||| ((i1 <<< 12) &&& 16777215))
          ||| ((i2 <<< 6) &&& 16777215)) ||| (i3 &&& 16777215)) pc) := by
  have m1 : (i + 1) % 4 = 1 := by omega
  have m2 : (i + 2) % 4 = 2 := by omega
  have m3 : (i + 3) % 4 = 3 := by omega
  have e4 : i + 3 + 1 = i + 4 := by omega
  simp only [decodeLoop, if_neg n0, if_neg n1, if_neg n2, if_neg n3, f0, f1, f2, f3,
    hi, m1, m2, m3]
  norm_num [e4, Nat.add_assoc]

theorem extractBytes_zero (buf : Nat) :
    extractBytes buf 0 = [buf >>> 16 % 256, buf >>> 8 % 256, buf % 256] := rfl

theorem encodeChunk3_eq (b0 b1 b2 : Nat) :
    encodeChunk [b0, b1, b2] =
      [alphabetNthUnwrap ((packBuf [b0, b1, b2] >>> 18) &&& 63),
       alphabetNthUnwrap ((packBuf [b0, b1, b2] >>> 12) &&& 63),
       alphabetNthUnwrap ((packBuf [b0, b1, b2] >>> 6) &&& 63),
       alphabetNthUnwrap (packBuf [b0, b1, b2] &&& 63)] := rfl

theorem extract3_val (b0 b1 b2 : Nat) (h0 : b0 < 256) (h1 : b1 < 256) (h2 : b2 < 256) :
    extractBytes
      ((((0 ||| ((((packBuf [b0, b1, b2] >>> 18) &&& 63) <<< 18) &&& 16777215))
        ||| ((((packBuf [b0, b1, b2] >>> 12) &&& 63) <<< 12) &&& 16777215))
        ||| ((((packBuf [b0, b1, b2] >>> 6) &&& 63) <<< 6) &&& 16777215))
        ||| ((packBuf [b0, b1, b2] &&& 63) &&& 16777215)) 0 = [b0, b1, b2] := by
  have hm0 : ((((packBuf [b0, b1, b2] >>> 18) &&& 63) <<< 18) &&& 16777215)
      = ((packBuf [b0, b1, b2] >>> 18) &&& 63) <<< 18 :=
    mask24_of_lt (by
      have := and63_lt (packBuf [b0, b1, b2] >>> 18)
      rw [Nat.shiftLeft_eq]
      omega)
  have hm1 : ((((packBuf [b0, b1, b2] >>> 12) &&& 63) <<< 12) &&& 16777215)
      = ((packBuf [b0, b1, b2] >>> 12) &&& 63) <<< 12 :=
    mask24_of_lt (by
      have := and63_lt (packBuf [b0, b1, b2] >>> 12)
      rw [Nat.shiftLeft_eq]
      omega)
  have hm2 : ((((packBuf [b0, b1, b2] >>> 6) &&& 63) <<< 6) &&& 16777215)
      = ((packBuf [b0, b1, b2] >>> 6) &&& 63) <<< 6 :=
    mask24_of_lt (by
      have := and63_lt (packBuf [b0, b1, b2] >>> 6)
      rw [Nat.shiftLeft_eq]
      omega)
  have hm3 : ((packBuf [b0, b1, b2] &&& 63) &&& 16777215)
      = packBuf [b0, b1, b2] &&& 63 :=
    mask24_of_lt (by
      have := and63_lt (packBuf [b0, b1, b2])
      omega)
  rw [hm0, hm1, hm2, hm3, Nat.zero_or,
    or4_eq_add _ _ _ _ (and63_lt _) (and63_lt _) (and63_lt _),
    extractBytes_zero]
  rw [shr_and63, shr_and63, shr_and63]
  have h63 : ∀ P : Nat, P &&& 63 = P % 64 := by
    intro P
    have := shr_and63 P 0
    simpa using this
  rw [h63, packBuf3_eq b0 b1 b2 h1 h2]
  rw [Nat.shiftRight_eq_div_pow, Nat.shiftRight_eq_div_pow]
  norm_num
  constructor
  · omega
  constructor
  · omega
  · omega


theorem or2_eq_add (i0 i1 : Nat) (h1 : i1 < 64) :
    i0 <<< 18 ||| i1 <<< 12 = i0 * 262144 + i1 * 4096 := by
  have h := or4_eq_add i0 i1 0 0 h1 (by norm_num) (by norm_num)
  rw [Nat.zero_shiftLeft, Nat.or_zero, Nat.or_zero] at h
  rw [h]
  ring

theorem or3_eq_add (i0 i1 i2 : Nat) (h1 : i1 < 64) (h2 : i2 < 64) :
    (i0 <<< 18 ||| i1 <<< 12) ||| i2 <<< 6 = i0 * 262144 + i1 * 4096 + i2 * 64 := by
  have h := or4_eq_add i0 i1 i2 0 h1 h2 (by norm_num)
  rw [Nat.or_zero] at h
  rw [h]
  ring

theorem extractBytes_one (buf : Nat) :
    extractBytes buf 1 = [buf >>> 16 % 256, buf >>> 8 % 256] := rfl

theorem extractBytes_two (buf : Nat) :
    extractBytes buf 2 = [buf >>> 16 % 256] := rfl

theorem encodeChunk1_eq (b0 : Nat) :
    encodeChunk [b0] =
      [alphabetNthUnwrap ((packBuf [b0] >>> 18) &&& 63),
       alphabetNthUnwrap ((packBuf [b0] >>> 12) &&& 63), '=', '='] := rfl

theorem encodeChunk2_eq (b0 b1 : Nat) :
    encodeChunk [b0, b1] =
      [alphabetNthUnwrap ((packBuf [b0, b1] >>> 18) &&& 63),
       alphabetNthUnwrap ((packBuf [b0, b1] >>> 12) &&& 63),
       alphabetNthUnwrap ((packBuf [b0, b1] >>> 6) &&& 63), '='] := rfl

theorem extract1_val (b0 : Nat) (h0 : b0 < 256) :
    extractBytes
      ((0 ||| ((((packBuf [b0] >>> 18) &&& 63) <<< 18) &&& 16777215))
        ||| ((((packBuf [b0] >>> 12) &&& 63) <<< 12) &&& 16777215)) 2 = [b0] := by
  have hm0 : ((((packBuf [b0] >>> 18) &&& 63) <<< 18) &&& 16777215)
      = ((packBuf [b0] >>> 18) &&& 63) <<< 18 :=
    mask24_of_lt (by
      have := and63_lt (packBuf [b0] >>> 18)
      rw [Nat.shiftLeft_eq]
      omega)
  have hm1 : ((((packBuf [b0] >>> 12) &&& 63) <<< 12) &&& 16777215)
      = ((packBuf [b0] >>> 12) &&& 63) <<< 12 :=
    mask24_of_lt (by
      have := and63_lt (packBuf [b0] >>> 12)
      rw [Nat.shiftLeft_eq]
      omega)
  rw [hm0, hm1, Nat.zero_or, or2_eq_add _ _ (and63_lt _), extractBytes_two]
  rw [shr_and63, shr_and63, packBuf1_eq, Nat.shiftRight_eq_div_pow]
  norm_num
  omega

theorem extract2_val (b0 b1 : Nat) (h0 : b0 < 256) (h1 : b1 < 256) :
    extractBytes
      (((0 ||| ((((packBuf [b0, b1] >>> 18) &&& 63) <<< 18) &&& 16777215))
        ||| ((((packBuf [b0, b1] >>> 12) &&& 63) <<< 12) &&& 16777215))
        ||| ((((packBuf [b0, b1] >>> 6) &&& 63) <<< 6) &&& 16777215)) 1 = [b0, b1] := by
  have hm0 : ((((packBuf [b0, b1] >>> 18) &&& 63) <<< 18) &&& 16777215)
      = ((packBuf [b0, b1] >>> 18) &&& 63) <<< 18 :=
    mask24_of_lt (by
      have := and63_lt (packBuf [b0, b1] >>> 18)
      rw [Nat.shiftLeft_eq]
      omega)
  have hm1 : ((((packBuf [b0, b1] >>> 12) &&& 63) <<< 12) &&& 16777215)
      = ((packBuf [b0, b1] >>> 12) &&& 63) <<< 12 :=
    mask24_of_lt (by
      have := and63_lt (packBuf [b0, b1] >>> 12)
      rw [Nat.shiftLeft_eq]
      omega)
  have hm2 : ((((packBuf [b0, b1] >>> 6) &&& 63) <<< 6) &&& 16777215)
      = ((packBuf [b0, b1] >>> 6) &&& 63) <<< 6 :=
    mask24_of_lt (by
      have := and63_lt (packBuf [b0, b1] >>> 6)
      rw [Nat.shiftLeft_eq]
      omega)
  rw [hm0, hm1, hm2, Nat.zero_or, or3_eq_add _ _ _ (and63_lt _) (and63_lt _),
    extractBytes_one]
  rw [shr_and63, shr_and63, shr_and63, packBuf2_eq b0 b1 h1]
  rw [Nat.shiftRight_eq_div_pow, Nat.shiftRight_eq_div_pow]
  norm_num
  constructor
  · omega
  · omega


theorem alphaFind_nthUnwrap_lt {n : Nat} (h : n < 64) :
    alphaFind (alphabetNthUnwrap n) = some n := alphaFind_nthUnwrap ⟨n, h⟩

theorem nthUnwrap_ne_pad_lt {n : Nat} (h : n < 64) :
    alphabetNthUnwrap n ≠ '=' := nthUnwrap_ne_pad ⟨n, h⟩

theorem decodeLoop_group2 (c0 c1 c2 : Char) (i0 i1 i2 : Nat)
    (f0 : alphaFind c0 = some i0) (f1 : alphaFind c1 = some i1)
    (f2 : alphaFind c2 = some i2)
    (n0 : c0 ≠ '=') (n1 : c1 ≠ '=') (n2 : c2 ≠ '=')
    (rest : List Char) (i buf pc : Nat) (bytes : List Nat) (hi : i % 4 = 0) :
    decodeLoop (c0 :: c1 :: c2 :: '=' :: rest) i buf pc bytes =
      decodeLoop rest (i + 4) 0 (pc + 1) (bytes ++ extractBytes
        (((buf ||| ((i0 <<< 18) &&& 16777215)) ||| ((i1 <<< 12) &&& 16777215))
          ||| ((i2 <<< 6) &&& 16777215)) (pc + 1)) := by
  have m1 : (i + 1) % 4 = 1 := by omega
  have m2 : (i + 2) % 4 = 2 := by omega
  have m3 : (i + 3) % 4 = 3 := by omega
  have e4 : i + 3 + 1 = i + 4 := by omega
  simp only [decodeLoop, if_neg n0, if_neg n1, if_neg n2, f0, f1, f2,
    hi, m1, m2, m3, if_pos rfl]
  norm_num [e4, Nat.add_assoc]

theorem decodeLoop_group1 (c0 c1 : Char) (i0 i1 : Nat)
    (f0 : alphaFind c0 = some i0) (f1 : alphaFind c1 = some i1)
    (n0 : c0 ≠ '=') (n1 : c1 ≠ '=')
    (rest : List Char) (i buf pc : Nat) (bytes : List Nat) (hi : i % 4 = 0) :
    decodeLoop (c0 :: c1 :: '=' :: '=' :: rest) i buf pc bytes =
      decodeLoop rest (i + 4) 0 (pc + 2) (bytes ++ extractBytes
        ((buf ||| ((i0 <<< 18) &&& 16777215)) ||| ((i1 <<< 12) &&& 16777215)) (pc + 2)) := by
  have m1 : (i + 1) % 4 = 1 := by omega
  have m2 : (i + 2) % 4 = 2 := by omega
  have m3 : (i + 3) % 4 = 3 := by omega
  have e4 : i + 3 + 1 = i + 4 := by omega
  simp only [decodeLoop, if_neg n0, if_neg n1, f0, f1, hi, m1, m2, m3, if_pos rfl]
  norm_num [e4, Nat.add_assoc]

theorem decodeLoop_chunk3 (b0 b1 b2 : Nat) (h0 : b0 < 256) (h1 : b1 < 256) (h2 : b2 < 256)
    (rest : List Char) (i : Nat) (bytes : List Nat) (hi : i % 4 = 0) :
    decodeLoop (encodeChunk [b0, b1, b2] ++ rest) i 0 0 bytes =
      decodeLoop rest (i + 4) 0 0 (bytes ++ [b0, b1, b2]) := by
  rw [encodeChunk3_eq]
  simp only [List.cons_append, List.nil_append]
  rw [decodeLoop_group3 _ _ _ _ _ _ _ _
    (alphaFind_nthUnwrap_lt (and63_lt _)) (alphaFind_nthUnwrap_lt (and63_lt _))
    (alphaFind_nthUnwrap_lt (and63_lt _)) (alphaFind_nthUnwrap_lt (and63_lt _))
    (nthUnwrap_ne_pad_lt (and63_lt _)) (nthUnwrap_ne_pad_lt (and63_lt _))
    (nthUnwrap_ne_pad_lt (and63_lt _)) (nthUnwrap_ne_pad_lt (and63_lt _))
    rest i 0 0 bytes hi]
  rw [extract3_val b0 b1 b2 h0 h1 h2]

theorem decodeLoop_chunk2 (b0 b1 : Nat) (h0 : b0 < 256) (h1 : b1 < 256)
    (rest : List Char) (i : Nat) (bytes : List Nat) (hi : i % 4 = 0) :
    decodeLoop (encodeChunk [b0, b1] ++ rest) i 0 0 bytes =
      decodeLoop rest (i + 4) 0 1 (bytes ++ [b0, b1]) := by
  rw [encodeChunk2_eq]
  simp only [List.cons_append, List.nil_append]
  rw [decodeLoop_group2 _ _ _ _ _ _
    (alphaFind_nthUnwrap_lt (and63_lt _)) (alphaFind_nthUnwrap_lt (and63_lt _))
    (alphaFind_nthUnwrap_lt (and63_lt _))
    (nthUnwrap_ne_pad_lt (and63_lt _)) (nthUnwrap_ne_pad_lt (and63_lt _))
    (nthUnwrap_ne_pad_lt (and63_lt _))
    rest i 0 0 bytes hi]
  rw [extract2_val b0 b1 h0 h1]

theorem decodeLoop_chunk1 (b0 : Nat) (h0 : b0 < 256)
    (rest : List Char) (i : Nat) (bytes : List Nat) (hi : i % 4 = 0) :
    decodeLoop (encodeChunk [b0] ++ rest) i 0 0 bytes =
      decodeLoop rest (i + 4) 0 2 (bytes ++ [b0]) := by
  rw [encodeChunk1_eq]
  simp only [List.cons_append, List.nil_append]
  rw [decodeLoop_group1 _ _ _ _
    (alphaFind_nthUnwrap_lt (and63_lt _)) (alphaFind_nthUnwrap_lt (and63_lt _))
    (nthUnwrap_ne_pad_lt (and63_lt _)) (nthUnwrap_ne_pad_lt (and63_lt _))
    rest i 0 0 bytes hi]
  rw [extract1_val b0 h0]


theorem encode_nil : encode [] = [] := rfl

theorem encode_cons3 (b0 b1 b2 : Nat) (rest : List Nat) :
    encode (b0 :: b1 :: b2 :: rest) = encodeChunk [b0, b1, b2] ++ encode rest := by
  simp [encode, chunks3]

theorem encode_one (b0 : Nat) : encode [b0] = encodeChunk [b0] ++ [] := by
  simp [encode, chunks3]

theorem encode_two (b0 b1 : Nat) : encode [b0, b1] = encodeChunk [b0, b1] ++ [] := by
  simp [encode, chunks3]

theorem decodeLoop_encode (bs : List Nat) (hb : ∀ b ∈ bs, b < 256) (i : Nat)
    (bytes : List Nat) (hi : i % 4 = 0) :
    ∃ pcf, decodeLoop (encode bs) i 0 0 bytes = .ok (bytes ++ bs, 0, pcf) := by
  induction bs using chunks3.induct generalizing i bytes with
  | case1 =>
    exact ⟨0, by simp [encode_nil, decodeLoop]⟩
  | case2 b0 b1 b2 rest ih =>
    have h0 : b0 < 256 := hb b0 (by simp)
    have h1 : b1 < 256 := hb b1 (by simp)
    have h2 : b2 < 256 := hb b2 (by simp)
    rw [encode_cons3, decodeLoop_chunk3 b0 b1 b2 h0 h1 h2 _ i bytes hi]
    obtain ⟨pcf, hp⟩ := ih (fun b hmem => hb b (by simp [hmem])) (i + 4)
      (bytes ++ [b0, b1, b2]) (by omega)
    exact ⟨pcf, by rw [hp]; simp⟩
  | case3 rest h1 h2 =>
    rcases rest with _ | ⟨b0, _ | ⟨b1, _ | ⟨b2, r⟩⟩⟩
    · exact (h1 rfl).elim
    · have h0 : b0 < 256 := hb b0 (by simp)
      refine ⟨2, ?_⟩
      rw [encode_one, decodeLoop_chunk1 b0 h0 [] i bytes hi]
      simp [decodeLoop]
    · have h0 : b0 < 256 := hb b0 (by simp)
      have h1b : b1 < 256 := hb b1 (by simp)
      refine ⟨1, ?_⟩
      rw [encode_two, decodeLoop_chunk2 b0 b1 h0 h1b [] i bytes hi]
      simp [decodeLoop]
    · exact (h2 b0 b1 b2 r rfl).elim


theorem decodeBytes_encode (bs : List Nat) (hb : ∀ b ∈ bs, b < 256) :
    decodeBytes (encode bs) = .ok bs := by
  obtain ⟨pcf, h⟩ := decodeLoop_encode bs hb 0 [] (by norm_num)
  rw [decodeBytes, h]
  rfl

/-- Characters outside the alphabet are not found. -/
theorem alphaFind_eq_none_of_not_mem {c : Char} (h : c ∉ alphabet) :
    alphaFind c = none := by
  rw [alphaFind, List.findIdx?_eq_none_iff]
  intro x hx
  simp only [decide_eq_false_iff_not]
  intro hxc
  exact h (hxc ▸ hx)

/-- Unfolding of one loop step, with the slot `n = i % 4` inlined. -/
theorem decodeLoop_cons (ch : Char) (rest : List Char) (i buf pc : Nat) (bytes : List Nat) :
    decodeLoop (ch :: rest) i buf pc bytes =
      if ch = '=' then
        if i % 4 = 3 then
          decodeLoop rest (i + 1) 0 (pc + 1) (bytes ++ extractBytes buf (pc + 1))
        else
          decodeLoop rest (i + 1) buf (pc + 1) bytes
      else
        match alphaFind ch with
        | none => .error .InvalidCharacter
        | some idx =>
          if i % 4 = 3 then
            decodeLoop rest (i + 1) 0 pc
              (bytes ++ extractBytes (buf ||| ((idx <<< (18 - (i % 4) * 6)) &&& 16777215)) pc)
          else
            decodeLoop rest (i + 1) (buf ||| ((idx <<< (18 - (i % 4) * 6)) &&& 16777215)) pc bytes
      := rfl

/-- A character of the alphabet is always found. -/
theorem alphaFind_isSome_of_mem {c : Char} (h : c ∈ alphabet) :
    ∃ n, alphaFind c = some n := by
  cases hfind : alphaFind c with
  | none =>
    rw [alphaFind, List.findIdx?_eq_none_iff] at hfind
    have := hfind c h
    simp at this
  | some n => exact ⟨n, rfl⟩

/-- An input containing a character outside the alphabet and distinct from
the padding symbol makes the loop abort with `InvalidCharacter`. -/
theorem decodeLoop_invalid (s : List Char) (hbad : ∃ c ∈ s, ¬ validChar c)
    (i buf pc : Nat) (bytes : List Nat) :
    decodeLoop s i buf pc bytes = .error .InvalidCharacter := by
  induction s generalizing i buf pc bytes with
  | nil => obtain ⟨c, hc, _⟩ := hbad; exact absurd hc (List.not_mem_nil c)
  | cons ch rest ih =>
    rw [decodeLoop_cons]
    by_cases hv : validChar ch
    · have hrest : ∃ c ∈ rest, ¬ validChar c := by
        obtain ⟨c, hc, hnc⟩ := hbad
        rcases List.mem_cons.mp hc with rfl | hmem
        · exact absurd hv hnc
        · exact ⟨c, hmem, hnc⟩
      by_cases hpad : ch = '='
      · rw [if_pos hpad]
        by_cases hn : i % 4 = 3
        · rw [if_pos hn]; exact ih hrest _ _ _ _
        · rw [if_neg hn]; exact ih hrest _ _ _ _
      · have hmem : ch ∈ alphabet := hv.resolve_left hpad
        obtain ⟨idx, hidx⟩ := alphaFind_isSome_of_mem hmem
        rw [if_neg hpad, hidx]
        by_cases hn : i % 4 = 3
        · simp only [if_pos hn]; exact ih hrest _ _ _ _
        · simp only [if_neg hn]; exact ih hrest _ _ _ _
    · have hpad : ¬ ch = '=' := fun h => hv (Or.inl h)
      have hmem : ch ∉ alphabet := fun h => hv (Or.inr h)
      rw [if_neg hpad, alphaFind_eq_none_of_not_mem hmem]

/-- A loop over accepted characters never fails. -/
theorem decodeLoop_ok_of_valid (s : List Char) (hv : ∀ c ∈ s, validChar c)
    (i buf pc : Nat) (bytes : List Nat) :
    ∃ st, decodeLoop s i buf pc bytes = .ok st := by
  induction s generalizing i buf pc bytes with
  | nil => exact ⟨(bytes, buf, pc), rfl⟩
  | cons ch rest ih =>
    have hrest : ∀ c ∈ rest, validChar c := fun c hc => hv c (List.mem_cons_of_mem _ hc)
    rw [decodeLoop_cons]
    by_cases hpad : ch = '='
    · rw [if_pos hpad]
      by_cases hn : i % 4 = 3
      · rw [if_pos hn]; exact ih hrest _ _ _ _
      · rw [if_neg hn]; exact ih hrest _ _ _ _
    · have hmem : ch ∈ alphabet := (hv ch (List.mem_cons_self _ _)).resolve_left hpad
      obtain ⟨idx, hidx⟩ := alphaFind_isSome_of_mem hmem
      rw [if_neg hpad, hidx]
      by_cases hn : i % 4 = 3
      · simp only [if_pos hn]; exact ih hrest _ _ _ _
      · simp only [if_neg hn]; exact ih hrest _ _ _ _

/-- Processing a concatenation processes the pieces in order. -/
theorem decodeLoop_append (xs ys : List Char) (i buf pc : Nat) (bytes : List Nat) :
    decodeLoop (xs ++ ys) i buf pc bytes =
      match decodeLoop xs i buf pc bytes with
      | .error e => .error e
      | .ok st => decodeLoop ys (i + xs.length) st.2.1 st.2.2 st.1 := by
  induction xs generalizing i buf pc bytes with
  | nil => simp [decodeLoop]
  | cons ch rest ih =>
    have hidx : i + 1 + rest.length = i + (ch :: rest).length := by
      simp only [List.length_cons]
      omega
    rw [List.cons_append, decodeLoop_cons, decodeLoop_cons]
    by_cases hpad : ch = '='
    · rw [if_pos hpad, if_pos hpad]
      by_cases hn : i % 4 = 3
      · rw [if_pos hn, if_pos hn, ih, hidx]
      · rw [if_neg hn, if_neg hn, ih, hidx]
    · rw [if_neg hpad, if_neg hpad]
      cases hfind : alphaFind ch with
      | none => rfl
      | some idx =>
        by_cases hn : i % 4 = 3
        · simp only [if_pos hn]
          rw [ih, hidx]
        · simp only [if_neg hn]
          rw [ih, hidx]

/-- A valid tail shorter than a full group adds no bytes. -/
theorem decodeLoop_short (t : List Char) (hv : ∀ c ∈ t, validChar c)
    (i buf pc : Nat) (bytes : List Nat) (hlen : i % 4 + t.length ≤ 3) :
    ∃ buf2 pc2, decodeLoop t i buf pc bytes = .ok (bytes, buf2, pc2) := by
  induction t generalizing i buf pc bytes with
  | nil => exact ⟨buf, pc, rfl⟩
  | cons ch rest ih =>
    have hn3 : ¬ i % 4 = 3 := by
      simp only [List.length_cons] at hlen
      omega
    have hlen2 : (i + 1) % 4 + rest.length ≤ 3 := by
      simp only [List.length_cons] at hlen
      omega
    have hrest : ∀ c ∈ rest, validChar c := fun c hc => hv c (List.mem_cons_of_mem _ hc)
    rw [decodeLoop_cons]
    by_cases hpad : ch = '='
    · rw [if_pos hpad, if_neg hn3]
      exact ih hrest _ _ _ _ hlen2
    · have hmem : ch ∈ alphabet := (hv ch (List.mem_cons_self _ _)).resolve_left hpad
      obtain ⟨idx, hidx⟩ := alphaFind_isSome_of_mem hmem
      rw [if_neg hpad, hidx]
      simp only [if_neg hn3]
      exact ih hrest _ _ _ _ hlen2


theorem encodeChunk_length (c : List Nat) : (encodeChunk c).length = 4 := by
  simp [encodeChunk]

theorem encode_length (bs : List Nat) :
    (encode bs).length = 4 * ((bs.length + 2) / 3) := by
  induction bs using chunks3.induct with
  | case1 => rfl
  | case2 b0 b1 b2 rest ih =>
    rw [encode_cons3]
    simp only [List.length_append, encodeChunk_length, List.length_cons, ih]
    omega
  | case3 rest h1 h2 =>
    rcases rest with _ | ⟨b0, _ | ⟨b1, _ | ⟨b2, r⟩⟩⟩
    · exact (h1 rfl).elim
    · rw [encode_one]
      simp [encodeChunk_length]
    · rw [encode_two]
      simp [encodeChunk_length]
    · exact (h2 b0 b1 b2 r rfl).elim

theorem takeWhile_length_ne {p : Char → Bool} {l : List Char}
    (h : ∃ c ∈ l, ¬ p c) : (l.takeWhile p).length ≠ l.length := by
  induction l with
  | nil => obtain ⟨c, hc, _⟩ := h; exact absurd hc (List.not_mem_nil c)
  | cons a l ih =>
    by_cases hpa : p a
    · have hl : ∃ c ∈ l, ¬ p c := by
        obtain ⟨c, hc, hnc⟩ := h
        rcases List.mem_cons.mp hc with rfl | hmem
        · exact absurd hpa hnc
        · exact ⟨c, hmem, hnc⟩
      rw [List.takeWhile_cons, if_pos hpa]
      simp only [List.length_cons]
      exact fun hlen => ih hl (by omega)
    · rw [List.takeWhile_cons, if_neg hpa]
      simp

theorem trailingPadCount_append (xs ys : List Char) (h : ∃ c ∈ ys, ¬ c = '=') :
    trailingPadCount (xs ++ ys) = trailingPadCount ys := by
  rw [trailingPadCount, trailingPadCount, List.reverse_append, List.takeWhile_append]
  have hne : (ys.reverse.takeWhile (fun c => c = '=')).length ≠ ys.reverse.length := by
    apply takeWhile_length_ne
    obtain ⟨c, hc, hnc⟩ := h
    exact ⟨c, List.mem_reverse.mpr hc, by simpa using hnc⟩
  rw [if_neg hne]

theorem trailingPadCount_all_pad {l : List Char} (h : ∀ c ∈ l, c = '=') :
    trailingPadCount l = l.length := by
  rw [trailingPadCount]
  have : ∀ c ∈ l.reverse, (fun c => decide (c = '=')) c = true := by
    intro c hc
    simp [h c (List.mem_reverse.mp hc)]
  rw [List.takeWhile_eq_self_iff.mpr this]
  simp

theorem tpc_chunk3 (b0 b1 b2 : Nat) : trailingPadCount (encodeChunk [b0, b1, b2]) = 0 := by
  have hc3 : alphabetNthUnwrap (packBuf [b0, b1, b2] &&& 63) ≠ '=' :=
    nthUnwrap_ne_pad_lt (and63_lt _)
  simp [encodeChunk3_eq, trailingPadCount, List.takeWhile_cons, hc3]

theorem tpc_chunk2 (b0 b1 : Nat) : trailingPadCount (encodeChunk [b0, b1]) = 1 := by
  have hc2 : alphabetNthUnwrap ((packBuf [b0, b1] >>> 6) &&& 63) ≠ '=' :=
    nthUnwrap_ne_pad_lt (and63_lt _)
  simp [encodeChunk2_eq, trailingPadCount, List.takeWhile_cons, hc2]

theorem tpc_chunk1 (b0 : Nat) : trailingPadCount (encodeChunk [b0]) = 2 := by
  have hc1 : alphabetNthUnwrap ((packBuf [b0] >>> 12) &&& 63) ≠ '=' :=
    nthUnwrap_ne_pad_lt (and63_lt _)
  simp [encodeChunk1_eq, trailingPadCount, List.takeWhile_cons, hc1]

theorem encode_trailingPadCount (bs : List Nat) :
    trailingPadCount (encode bs) = (3 - bs.length % 3) % 3 := by
  induction bs using chunks3.induct with
  | case1 => rfl
  | case2 b0 b1 b2 rest ih =>
    by_cases hne : rest = []
    · subst hne
      rw [encode_cons3, encode_nil, List.append_nil]
      simp [tpc_chunk3]
    · have hlen : (encode rest).length = 4 * ((rest.length + 2) / 3) := encode_length rest
      have hlen4 : 4 ≤ (encode rest).length := by
        rw [hlen]
        have : 1 ≤ rest.length := List.length_pos.mpr hne
        omega
      have hpad : ∃ c ∈ encode rest, ¬ c = '=' := by
        by_contra hall
        push_neg at hall
        have := trailingPadCount_all_pad hall
        rw [ih] at this
        omega
      rw [encode_cons3, trailingPadCount_append _ _ hpad, ih]
      simp only [List.length_cons]
      omega
  | case3 rest h1 h2 =>
    rcases rest with _ | ⟨b0, _ | ⟨b1, _ | ⟨b2, r⟩⟩⟩
    · exact (h1 rfl).elim
    · rw [encode_one, List.append_nil]
      simp [tpc_chunk1]
    · rw [encode_two, List.append_nil]
      simp [tpc_chunk2]
    · exact (h2 b0 b1 b2 r rfl).elim

theorem encode_chars (bs : List Nat) : ∀ c ∈ encode bs, c = '=' ∨ c ∈ alphabet := by
  intro c hc
  rw [encode] at hc
  obtain ⟨piece, hpiece, hcp⟩ := List.mem_flatten.mp hc
  obtain ⟨chunk, _, rfl⟩ := List.mem_map.mp hpiece
  rw [encodeChunk] at hcp
  obtain ⟨i, _, rfl⟩ := List.mem_map.mp hcp
  by_cases hlt : i < chunk.length + 1
  · rw [if_pos hlt]
    exact Or.inr (nthUnwrap_mem _)
  · rw [if_neg hlt]
    exact Or.inl rfl


/-- Evaluation of `decode` once the loop result is known. -/
theorem decodeBytes_eq_ok {s : List Char} {st : List Nat × Nat × Nat}
    (h : decodeLoop s 0 0 0 [] = .ok st) : decodeBytes s = .ok st.1 := by
  rw [decodeBytes, h]
  rfl

theorem decodeBytes_eq_error {s : List Char} {e : Base64Error}
    (h : decodeLoop s 0 0 0 [] = .error e) : decodeBytes s = .error e := by
  rw [decodeBytes, h]
  rfl

theorem decode_eq_of_ok {s : List Char} {bs : List Nat}
    (h : decodeBytes s = .ok bs) :
    decode s = if utf8Valid bs then .ok bs else .error (.Utf8Error bs) := by
  rw [decode, h]

theorem decode_eq_of_error {s : List Char} {e : Base64Error}
    (h : decodeBytes s = .error e) : decode s = .error e := by
  rw [decode, h]

/-- C1: Round-trip: for every byte sequence that is valid text in the
native encoding (UTF-8), `decode (encode b)` returns `Ok b`. -/
theorem C1_roundtrip (bs : List Nat) (hb : ∀ b ∈ bs, b < 256)
    (hv : utf8Valid bs = true) : decode (encode bs) = .ok bs := by
  rw [decode_eq_of_ok (decodeBytes_encode bs hb), if_pos hv]

/-- Witness for C1 at the bytes of `"foo"`. -/
theorem C1_roundtrip_witness : decode (encode [102, 111, 111]) = .ok [102, 111, 111] :=
  C1_roundtrip [102, 111, 111] (by decide) (by decide)

/-- C2: the code, evaluated where the claim says the padding counter is
reset after a completed group: after decoding the group `"Zg=="` the
accumulator is reset to `0` but the padding counter stays at `2`, so the
following group `"Zm9v"` contributes only `3 - 2 = 1` byte and
`decode "Zg==Zm9v"` returns the bytes of `"ff"`, not of `"ffoo"`. -/
theorem C2_padding_count_not_reset :
    decodeLoop ("Zg==".data) 0 0 0 [] = .ok ([102], 0, 2) ∧
      decode ("Zg==Zm9v".data) = .ok [102, 102] := by
  constructor
  · rfl
  · rfl

/-- C3: an input whose first invalid character (outside the alphabet and
not the padding symbol) follows a valid prefix makes `decode` fail with
`InvalidCharacter`; the result does not depend on anything after that
character, and no partial byte sequence is returned. -/
theorem C3_invalid_character_abort (pre suf suf2 : List Char) (c : Char)
    (hpre : ∀ x ∈ pre, validChar x) (hc : ¬ validChar c) :
    decode (pre ++ c :: suf) = .error .InvalidCharacter ∧
      decode (pre ++ c :: suf) = decode (pre ++ c :: suf2) := by
  have herr : ∀ t : List Char, decode (pre ++ c :: t) = .error .InvalidCharacter := by
    intro t
    have hbad : ∃ x ∈ pre ++ c :: t, ¬ validChar x :=
      ⟨c, List.mem_append_right _ (List.mem_cons_self _ _), hc⟩
    exact decode_eq_of_error (decodeBytes_eq_error (decodeLoop_invalid _ hbad 0 0 0 []))
  exact ⟨herr suf, by rw [herr suf, herr suf2]⟩

/-- Witness for C3 with prefix `"Zm"`, invalid character `'!'` and two
different suffixes. -/
theorem C3_invalid_character_abort_witness :
    decode (['Z', 'm'] ++ '!' :: ['A']) = .error .InvalidCharacter ∧
      decode (['Z', 'm'] ++ '!' :: ['A']) = decode (['Z', 'm'] ++ '!' :: ['B']) :=
  C3_invalid_character_abort ['Z', 'm'] ['A'] ['B'] '!' (by decide) (by decide)

/-- C4: on an input of accepted characters whose length is not a multiple
of 4, decoding succeeds at the byte level and equals decoding of the
completed groups alone: the trailing incomplete group contributes no
bytes; in particular `decode "Zm9vYg"` is `Ok "foo"`. -/
theorem C4_tolerant_truncated (s : List Char) (h4 : s.length % 4 ≠ 0)
    (hval : ∀ c ∈ s, validChar c) :
    (∃ bs, decodeBytes s = .ok bs ∧
        decodeBytes (s.take (4 * (s.length / 4))) = .ok bs) ∧
      decode s = decode (s.take (4 * (s.length / 4))) ∧
      decode ("Zm9vYg".data) = .ok [102, 111, 111] := by
  have hk : 4 * (s.length / 4) ≤ s.length := by omega
  have hsplit : s.take (4 * (s.length / 4)) ++ s.drop (4 * (s.length / 4)) = s :=
    List.take_append_drop _ s
  have htklen : (s.take (4 * (s.length / 4))).length = 4 * (s.length / 4) := by
    rw [List.length_take]
    omega
  have hvtk : ∀ c ∈ s.take (4 * (s.length / 4)), validChar c := fun c hc =>
    hval c (List.mem_of_mem_take hc)
  have hvdr : ∀ c ∈ s.drop (4 * (s.length / 4)), validChar c := fun c hc =>
    hval c (List.mem_of_mem_drop hc)
  obtain ⟨st, hst⟩ := decodeLoop_ok_of_valid (s.take (4 * (s.length / 4))) hvtk 0 0 0 []
  have hdrop : ∃ buf2 pc2, decodeLoop (s.drop (4 * (s.length / 4)))
      (0 + (s.take (4 * (s.length / 4))).length) st.2.1 st.2.2 st.1 =
        .ok (st.1, buf2, pc2) := by
    apply decodeLoop_short _ hvdr
    rw [htklen, List.length_drop]
    omega
  obtain ⟨buf2, pc2, hdr⟩ := hdrop
  have hs : decodeLoop s 0 0 0 [] = .ok (st.1, buf2, pc2) := by
    conv_lhs => rw [← hsplit]
    rw [decodeLoop_append, hst]
    exact hdr
  have hys : decodeBytes s = .ok st.1 := by
    have := decodeBytes_eq_ok hs
    exact this
  have hyt : decodeBytes (s.take (4 * (s.length / 4))) = .ok st.1 := decodeBytes_eq_ok hst
  refine ⟨⟨st.1, hys, hyt⟩, ?_, by rfl⟩
  rw [decode_eq_of_ok hys, decode_eq_of_ok hyt]

/-- Witness for C4 at the truncated input `"Zm9vYg"`. -/
theorem C4_tolerant_truncated_witness :
    (∃ bs, decodeBytes ("Zm9vYg".data) = .ok bs ∧
        decodeBytes (("Zm9vYg".data).take (4 * (("Zm9vYg".data).length / 4))) = .ok bs) ∧
      decode ("Zm9vYg".data) =
        decode (("Zm9vYg".data).take (4 * (("Zm9vYg".data).length / 4))) ∧
      decode ("Zm9vYg".data) = .ok [102, 111, 111] :=
  C4_tolerant_truncated ("Zm9vYg".data) (by decide) (by decide)

/-- C5: the length of `encode b` is `4 * ceil(length b / 3)` characters,
and the empty input encodes to the empty string. -/
theorem C5_encode_length_invariant :
    (∀ bs : List Nat, (encode bs).length = 4 * ((bs.length + 2) / 3)) ∧
      encode [] = [] :=
  ⟨encode_length, rfl⟩

/-- C6: `encode b` ends with exactly `(3 - length b mod 3) mod 3` padding
symbols, and every non-padding character of the output is an alphabet
symbol. -/
theorem C6_encode_padding_invariant :
    (∀ bs : List Nat, trailingPadCount (encode bs) = (3 - bs.length % 3) % 3) ∧
      ∀ (bs : List Nat), ∀ c ∈ encode bs, c ≠ '=' → c ∈ alphabet := by
  refine ⟨encode_trailingPadCount, fun bs c hc hne => ?_⟩
  rcases encode_chars bs c hc with h | h
  · exact absurd h hne
  · exact h

/-- C7: `decode` returns the `Utf8Error` text-decoding failure carrying
the assembled bytes exactly when every input character passed validation
and the fully assembled byte sequence is not valid UTF-8; in particular an
`InvalidCharacter` failure always takes precedence. -/
theorem C7_utf8_error_iff (s : List Char) (bs : List Nat) :
    decode s = .error (.Utf8Error bs) ↔
      ((∀ c ∈ s, validChar c) ∧ decodeBytes s = .ok bs ∧ utf8Valid bs = false) := by
  constructor
  · intro h
    by_cases hval : ∀ c ∈ s, validChar c
    · obtain ⟨st, hst⟩ := decodeLoop_ok_of_valid s hval 0 0 0 []
      have hdb : decodeBytes s = .ok st.1 := decodeBytes_eq_ok hst
      rw [decode_eq_of_ok hdb] at h
      by_cases hu : utf8Valid st.1
      · rw [if_pos hu] at h
        exact absurd h (by simp)
      · rw [if_neg hu] at h
        have hbs : st.1 = bs := by
          injection h with h2
          injection h2
        subst hbs
        exact ⟨hval, hdb, by simpa using hu⟩
    · have hbad : ∃ c ∈ s, ¬ validChar c := by
        push_neg at hval
        exact hval
      rw [decode_eq_of_error (decodeBytes_eq_error (decodeLoop_invalid _ hbad 0 0 0 []))] at h
      injection h with h2
      exact absurd h2 (by simp)
  · rintro ⟨hval, hdb, hu⟩
    rw [decode_eq_of_ok hdb, if_neg (by simp [hu])]

/-- C8: neither operation can panic: the alphabet lookup index in `encode`
is masked to 6 bits, so the lookup always succeeds, and when the padding
counter reaches 3 or more within a group the extraction range in `decode`
is simply empty. -/
theorem C8_no_panic (buf k pc : Nat) (hpc : 3 ≤ pc) :
    (alphabetNth ((buf >>> k) &&& 63)).isSome = true ∧ extractBytes buf pc = [] := by
  refine ⟨alphabetNth_isSome_of_lt (and63_lt _), ?_⟩
  rw [extractBytes]
  have h0 : 3 - pc = 0 := by omega
  rw [h0]
  rfl

/-- Witness for C8 at `buf = 5`, shift `2`, padding count `3`. -/
theorem C8_no_panic_witness :
    (alphabetNth ((5 >>> 2) &&& 63)).isSome = true ∧ extractBytes 5 3 = [] :=
  C8_no_panic 5 2 3 (by decide)

/-- C9: a padding symbol is accepted at any position: it only increments
the padding counter and contributes no bits to the accumulator, and
`decode "===="` succeeds with empty output. -/
theorem C9_padding_anywhere :
    (∀ (rest : List Char) (i buf pc : Nat) (bytes : List Nat),
        decodeLoop ('=' :: rest) i buf pc bytes =
          if i % 4 = 3 then
            decodeLoop rest (i + 1) 0 (pc + 1) (bytes ++ extractBytes buf (pc + 1))
          else
            decodeLoop rest (i + 1) buf (pc + 1) bytes) ∧
      decode ['=', '=', '=', '='] = .ok [] := by
  constructor
  · intro rest i buf pc bytes
    rw [decodeLoop_cons, if_pos rfl]
  · rfl

/-- C10: an invalid character in a trailing incomplete group (which would
contribute no bytes) is still rejected with `InvalidCharacter`. -/
theorem C10_trailing_group_validated (s : List Char) (h4 : s.length % 4 ≠ 0)
    (hpre : ∀ c ∈ s.take (4 * (s.length / 4)), validChar c)
    (hbad : ∃ c ∈ s.drop (4 * (s.length / 4)), ¬ validChar c) :
    decode s = .error .InvalidCharacter := by
  obtain ⟨c, hc, hnc⟩ := hbad
  have hbad2 : ∃ c ∈ s, ¬ validChar c := ⟨c, List.mem_of_mem_drop hc, hnc⟩
  exact decode_eq_of_error (decodeBytes_eq_error (decodeLoop_invalid _ hbad2 0 0 0 []))

/-- Witness for C10 at `"Zm9v!"`: the `'!'` sits in the trailing group. -/
theorem C10_trailing_group_validated_witness :
    decode ("Zm9v!".data) = .error .InvalidCharacter :=
  C10_trailing_group_validated ("Zm9v!".data) (by decide) (by decide) (by decide)

end B64
